import Mathlib

/-!
Verification development for `convert_to_structured_logger.py`, a one-shot
source-to-source rewriter of legacy logging calls (Timber / android.util.Log)
into StructuredLogger calls.  The Python program is embedded shallowly over
`List Char`: each `re` pattern used by the source is implemented as a
special-purpose deterministic matcher faithful to the Python leftmost, greedy
search semantics for that particular pattern (none of the patterns involved
requires backtracking, as each quantified class excludes the character that
follows it, so maximal munch is exact).
-/

namespace LogConv

abbrev Chars := List Char

/-- Python `str.split(sep)` whitespace set: the characters matched by `\s`
and stripped by `str.strip()`. -/
def pyWs (c : Char) : Bool :=
  c == ' ' || c == '\t' || c == '\n' || c == '\r' || c == '\x0b' || c == '\x0c'

/-- Python regex `\w` on ASCII input: letters, digits, underscore. -/
def isWordCh (c : Char) : Bool := c.isAlphanum || c == '_'

/-- Does `s` begin with `p`? -/
def startsWith : Chars → Chars → Bool
  | _, [] => true
  | [], _ :: _ => false
  | c :: s, d :: p => c == d && startsWith s p

/-- Python substring containment `p in s`. -/
def inStr (p : Chars) : Chars → Bool
  | [] => startsWith [] p
  | s@(_ :: rest) => startsWith s p || inStr p rest

/-- Leftmost search: try `f` on every suffix of the input, left to right. -/
def searchFirst {α : Type} (f : Chars → Option α) : Chars → Option α
  | [] => f []
  | s@(_ :: rest) =>
    match f s with
    | some r => some r
    | none => searchFirst f rest

/-- Does any suffix satisfy `f`? (boolean leftmost search). -/
def anySuffixB (f : Chars → Bool) : Chars → Bool
  | [] => f []
  | s@(_ :: rest) => f s || anySuffixB f rest

/-- Index of the last occurrence of `c` in `s`. -/
def lastIdxOf (c : Char) : Chars → Option Nat
  | [] => none
  | x :: rest =>
    match lastIdxOf c rest with
    | some i => some (i + 1)
    | none => if x == c then some 0 else none

/-- Python `str.strip()`. -/
def pyStrip (s : Chars) : Chars :=
  ((s.dropWhile pyWs).reverse.dropWhile pyWs).reverse

/-- Python `str.lower()` (ASCII fragment). -/
def lowerStr (s : Chars) : Chars := s.map Char.toLower

/-- Python `str.split('\n')`: split on every occurrence, keeping empty parts. -/
def splitOnCh (c : Char) : Chars → List Chars
  | [] => [[]]
  | x :: rest =>
    if x == c then [] :: splitOnCh c rest
    else
      match splitOnCh c rest with
      | h :: t => (x :: h) :: t
      | [] => [[x]]

def pyLines (s : Chars) : List Chars := splitOnCh '\n' s

/-- The Python newline join over a list of lines. -/
def joinLines (ls : List Chars) : Chars := List.intercalate ['\n'] ls

/-- Python `str.count(c)` for a single character. -/
def countCh (c : Char) (s : Chars) : Nat := (s.filter (fun x => x == c)).length

/-- Python `str.split(c, 1)`: at most one split, at the first occurrence. -/
def pySplitOnce (c : Char) (s : Chars) : List Chars :=
  let b := s.takeWhile (fun x => !(x == c))
  if b.length == s.length then [s] else [b, s.drop (b.length + 1)]

/-- Python `str.rsplit(c, 1)`: at most one split, at the last occurrence. -/
def pyRSplitOnce (c : Char) (s : Chars) : List Chars :=
  match lastIdxOf c s with
  | some i => [s.take i, s.drop (i + 1)]
  | none => [s]

/-- The `re.sub` of a literal pattern with empty replacement: remove all occurrences,
left to right, non-overlapping.  Fuel-driven; fuel `s.length` suffices. -/
def removeLitAux (pat : Chars) : Nat → Chars → Chars
  | 0, s => s
  | _ + 1, [] => []
  | fuel + 1, s@(c :: rest) =>
    if startsWith s pat then
      if pat.isEmpty then c :: removeLitAux pat fuel rest
      else removeLitAux pat fuel (s.drop pat.length)
    else c :: removeLitAux pat fuel rest

def removeLit (pat s : Chars) : Chars := removeLitAux pat s.length s

/-- Python `pathlib.Path(p).name` (posix): final path component. -/
def lastComponent (p : Chars) : Chars :=
  match lastIdxOf '/' p with
  | some i => p.drop (i + 1)
  | none => p

/-- Python `pathlib.Path(p).stem`: name without its final suffix. -/
def pyStem (path : Chars) : Chars :=
  let nm := lastComponent path
  match lastIdxOf '.' nm with
  | some i => if 0 < i ∧ i + 1 < nm.length then nm.take i else nm
  | none => nm

/-- The one-letter level selectors recognized by every call pattern:
the regex class `[deiwv]`. -/
def levelChar (c : Char) : Bool :=
  c == 'd' || c == 'e' || c == 'i' || c == 'w' || c == 'v'

/-- Level letter to canonical level name:
`{'d': 'debug', 'e': 'error', 'i': 'info', 'w': 'warn', 'v': 'debug'}`
with default `debug`. -/
def levelMap (c : Char) : Chars :=
  if c == 'd' then ("debug".data)
  else if c == 'e' then ("error".data)
  else if c == 'i' then ("info".data)
  else if c == 'w' then ("warn".data)
  else if c == 'v' then ("debug".data)
  else ("debug".data)

def litTimberTag : Chars := "Timber.tag(".data

def canonicalImport : Chars :=
  "import com.expensemanager.app.utils.logging.StructuredLogger".data

def canonicalField : Chars := "private val logger = StructuredLogger".data

/-- Twelve equals signs, the unit of the decorative-separator pattern. -/
def eqRun12 : Chars := List.replicate 12 '='

/-- The search for `============.*============` : a run of twelve `=` with
another run of twelve `=` starting at least twelve characters later.
Finding the first run and then any run in the remainder is equivalent to
the regex search (a later first run only shrinks the remainder). -/
def sepSearch : Chars → Bool
  | [] => false
  | s@(_ :: rest) =>
    if startsWith s eqRun12 then inStr eqRun12 (s.drop 12) else sepSearch rest

/-- `LogConverter.should_remove_log`: disjunction of the fixed
`UNNECESSARY_PATTERNS`, all matched case-insensitively. -/
def should_remove_log (s : Chars) : Bool :=
  let l := lowerStr s
  sepSearch s
    || inStr ("[debug]".data) l
    || inStr ("println".data) l
    || inStr ("log.v(".data) l
    || inStr ("todo".data) l
    || inStr ("fixme".data) l
    || inStr ("testing".data) l
    || inStr ("debugging".data) l
    || inStr ("all keys in".data) l
    || inStr ("inclusion states json".data) l

/-- The search pattern `fun\s+(\w+)\s*\(` anchored at the head of `s`:
keyword `fun`, at least one whitespace, a captured word, optional
whitespace, an opening parenthesis. -/
def funMatchAt (s : Chars) : Option Chars :=
  if startsWith s ("fun".data) then
    let r := s.drop 3
    let ws := r.takeWhile pyWs
    if ws.length == 0 then none
    else
      let r2 := r.dropWhile pyWs
      let w := r2.takeWhile isWordCh
      if w.length == 0 then none
      else
        match (r2.drop w.length).dropWhile pyWs with
        | c :: _ => if c == '(' then some w else none
        | [] => none
  else none

def funSearch (line : Chars) : Option Chars := searchFirst funMatchAt line

/-- Indices `a, a-1, ..., a-k+1` (the Python `range(a, a-k, -1)`). -/
def downFrom (a : Nat) : Nat → List Nat
  | 0 => []
  | k + 1 => a :: downFrom (a - 1) k

/-- The 0-based line indices scanned by `extract_method_name` for a call on
1-based line `n`: Python `range(n - 1, max(0, n - 50), -1)`. -/
def winIdxs (n : Nat) : List Nat := downFrom (n - 1) ((n - 1) - (n - 50))

/-- First match of the `fun` declaration pattern over a list of line
indices; sentinel `"unknown"` when the list is exhausted. -/
def firstFun (lines : List Chars) : List Nat → Chars
  | [] => "unknown".data
  | i :: is =>
    match funSearch (lines.getD i []) with
    | some r => r
    | none => firstFun lines is

/-- Line `i` (0-based) of the full text. -/
def lineAt (content : Chars) (i : Nat) : Chars := (pyLines content).getD i []

/-- `LogConverter.extract_method_name`. -/
def extract_method_name (content : Chars) (line_num : Nat) : Chars :=
  firstFun (pyLines content) (winIdxs line_num)

/-- The pattern `Timber\.tag\([^)]+\)\.([deiwv])\((.*)\)` anchored at
the head of `s`: captures the level letter and the greedy message text (all
characters up to the last closing parenthesis). -/
def timberMatchAt (s : Chars) : Option (Char × Chars) :=
  if startsWith s litTimberTag then
    let r := s.drop litTimberTag.length
    let tg := r.takeWhile (fun c => !(c == ')'))
    if tg.length == 0 then none
    else
      match r.drop tg.length with
      | c1 :: c2 :: lv :: c3 :: r2 =>
        if c1 == ')' && c2 == '.' && c3 == '(' && levelChar lv then
          match lastIdxOf ')' r2 with
          | some i => some (lv, r2.take i)
          | none => none
        else none
      | _ => none
  else none

/-- The pattern `Log\.([deiwv])\("([^"]+)",\s*(.*)\)` anchored at the
head of `s`: captures level letter, quoted tag, and the greedy remainder up
to the last closing parenthesis (after skipping whitespace that follows the
comma). -/
def logMatchAt (s : Chars) : Option (Char × Chars × Chars) :=
  match s with
  | c1 :: c2 :: c3 :: c4 :: lv :: c5 :: c6 :: r =>
    if c1 == 'L' && c2 == 'o' && c3 == 'g' && c4 == '.' && c5 == '(' && c6 == '"'
        && levelChar lv then
      let tg := r.takeWhile (fun c => !(c == '"'))
      if tg.length == 0 then none
      else
        match r.drop tg.length with
        | g1 :: g2 :: r2 =>
          if g1 == '"' && g2 == ',' then
            let r3 := r2.dropWhile pyWs
            match lastIdxOf ')' r3 with
            | some i => some (lv, tg, r3.take i)
            | none => none
          else none
        | _ => none
    else none
  | _ => none

/-- `LogConverter.convert_log_call`: rewrite one matched legacy call. -/
def convert_log_call (content : Chars) (line_num : Nat) (full : Chars) : Chars :=
  if should_remove_log full then []
  else
    match searchFirst timberMatchAt full with
    | some (lv, message) =>
      let method_name := extract_method_name content line_num
      let method := levelMap lv
      if method == ("error".data) && inStr (",".data) message then
        let parts := pySplitOnce ',' message
        let exception := pyStrip (parts.getD 0 [])
        let msg := if parts.length > 1 then pyStrip (parts.getD 1 []) else ("\"\"".data)
        ("logger.".data) ++ method ++ ("(\"".data) ++ method_name ++ ("\", ".data)
          ++ msg ++ (", ".data) ++ exception ++ (")".data)
      else
        ("logger.".data) ++ method ++ ("(\"".data) ++ method_name ++ ("\", ".data)
          ++ message ++ (")".data)
    | none =>
      match searchFirst logMatchAt full with
      | some (lv, _tag, message) =>
        let method_name := extract_method_name content line_num
        let method := levelMap lv
        if method == ("error".data) && decide (1 ≤ countCh ',' message) then
          let parts := pyRSplitOnce ',' message
          let msg := pyStrip (parts.getD 0 [])
          let exception := pyStrip (parts.getD 1 [])
          ("logger.".data) ++ method ++ ("(\"".data) ++ method_name ++ ("\", ".data)
            ++ msg ++ (", ".data) ++ exception ++ (")".data)
        else
          ("logger.".data) ++ method ++ ("(\"".data) ++ method_name ++ ("\", ".data)
            ++ message ++ (")".data)
      | none => full

/-- Branch `Timber\.tag\([^)]+\)\.[deiwv]\([^)]*\)` of the substitution
alternation, anchored at the head of `s`; yields the match length. -/
def tryTimberAlt (s : Chars) : Option Nat :=
  if startsWith s litTimberTag then
    let r := s.drop litTimberTag.length
    let tg := r.takeWhile (fun c => !(c == ')'))
    if tg.length == 0 then none
    else
      match r.drop tg.length with
      | c1 :: c2 :: lv :: c3 :: r2 =>
        if c1 == ')' && c2 == '.' && c3 == '(' && levelChar lv then
          let args := r2.takeWhile (fun c => !(c == ')'))
          match r2.drop args.length with
          | _ :: _ => some (litTimberTag.length + tg.length + 4 + args.length + 1)
          | [] => none
        else none
      | _ => none
  else none

/-- Branch `Log\.[deiwv]\([^)]*\)` of the substitution alternation, anchored
at the head of `s`; yields the match length. -/
def tryLogAlt (s : Chars) : Option Nat :=
  match s with
  | c1 :: c2 :: c3 :: c4 :: lv :: c5 :: r =>
    if c1 == 'L' && c2 == 'o' && c3 == 'g' && c4 == '.' && c5 == '(' && levelChar lv then
      let args := r.takeWhile (fun c => !(c == ')'))
      match r.drop args.length with
      | _ :: _ => some (6 + args.length + 1)
      | [] => none
    else none
  | _ => none

/-- `re.sub` with the combined alternation and `convert_log_call` as the
replacement: scan left to right, replace each match, continue after it.
Fuel-driven; fuel `s.length` suffices since every match is nonempty. -/
def subLineAux (content : Chars) (n : Nat) : Nat → Chars → Chars
  | 0, s => s
  | _ + 1, [] => []
  | fuel + 1, s@(c :: rest) =>
    match
      (match tryTimberAlt s with
       | some len => some len
       | none => tryLogAlt s) with
    | some len =>
      convert_log_call content n (s.take len) ++ subLineAux content n fuel (s.drop len)
    | none => c :: subLineAux content n fuel rest

def processLine (content : Chars) (n : Nat) (line : Chars) : Chars :=
  subLineAux content n line.length line

/-- The guard pattern `Log\.[deiwv]\(` anchored at head. -/
def logCallAt (s : Chars) : Bool :=
  match s with
  | c1 :: c2 :: c3 :: c4 :: lv :: c5 :: _ =>
    c1 == 'L' && c2 == 'o' && c3 == 'g' && c4 == '.' && c5 == '(' && levelChar lv
  | _ => false

/-- Line eligibility check: `Timber.tag` contained in the line, or the pattern `Log\.[deiwv]\(` found in it. -/
def lineHasMarker (line : Chars) : Bool :=
  inStr ("Timber.tag".data) line || anySuffixB logCallAt line

/-- The per-line loop of `LogConverter.process_content`: lines whose
substituted text is blank are dropped entirely. -/
def procLines (content : Chars) : Nat → List Chars → List Chars
  | _, [] => []
  | n, l :: ls =>
    if lineHasMarker l then
      let nl := processLine content n l
      if (pyStrip nl).length == 0 then procLines content (n + 1) ls
      else nl :: procLines content (n + 1) ls
    else l :: procLines content (n + 1) ls

/-- `LogConverter.process_content`. -/
def process_content (content : Chars) : Chars :=
  joinLines (procLines content 1 (pyLines content))

/-- The multiline search for a line start followed by `import ` : position of the first
line start that begins with `import `. -/
def importLinePosAux : Nat → Bool → Chars → Option Nat
  | _, _, [] => none
  | i, atStart, s@(c :: rest) =>
    if atStart && startsWith s ("import ".data) then some i
    else importLinePosAux (i + 1) (c == '\n') rest

def importLinePos (c : Chars) : Option Nat := importLinePosAux 0 true c

/-- The two legacy import removals performed by `update_imports`. -/
def removeLegacyImports (c : Chars) : Chars :=
  removeLit ("import android.util.Log\n".data)
    (removeLit ("import timber.log.Timber\n".data) c)

/-- `LogConverter.update_imports`. -/
def update_imports (c : Chars) : Chars :=
  let c2 := removeLegacyImports c
  if inStr canonicalImport c2 then c2
  else
    match importLinePos c2 with
    | some i => (c2.take i) ++ canonicalImport ++ ['\n'] ++ (c2.drop i)
    | none => c2

/-- The pattern `class\s+(\w+)` anchored at head: captured class
name. -/
def classNameAt (s : Chars) : Option Chars :=
  if startsWith s ("class".data) then
    let r := s.drop 5
    let ws := r.takeWhile pyWs
    if ws.length == 0 then none
    else
      let r2 := r.dropWhile pyWs
      let w := r2.takeWhile isWordCh
      if w.length == 0 then none else some w
  else none

/-- The pattern `class\s+\w+[^\x7b]*\x7b` anchored at head: length of
the match (ending just after the opening brace). -/
def classBodyAt (s : Chars) : Option Nat :=
  if startsWith s ("class".data) then
    let r := s.drop 5
    let ws := r.takeWhile pyWs
    if ws.length == 0 then none
    else
      let r2 := r.dropWhile pyWs
      let w := r2.takeWhile isWordCh
      if w.length == 0 then none
      else
        let r3 := r2.drop w.length
        let mid := r3.takeWhile (fun c => !(c == '\x7b'))
        match r3.drop mid.length with
        | _ :: _ => some (5 + ws.length + w.length + mid.length + 1)
        | [] => none
  else none

/-- Leftmost search returning the absolute end position of the match. -/
def searchPosAux (f : Chars → Option Nat) (i : Nat) : Chars → Option Nat
  | [] =>
    (match f [] with
     | some l => some (i + l)
     | none => none)
  | s@(_ :: rest) =>
    match f s with
    | some l => some (i + l)
    | none => searchPosAux f (i + 1) rest

def classBodyPos (c : Chars) : Option Nat := searchPosAux classBodyAt 0 c

/-- `LogConverter.add_logger_instance`. -/
def add_logger_instance (c : Chars) (class_name feature_tag : Chars) : Chars :=
  if inStr canonicalField c || inStr ("private val logger:".data) c then c
  else
    match classBodyPos c with
    | none => c
    | some pos =>
      let logger_code :=
        ('\n' :: "    private val logger = StructuredLogger(".data)
          ++ feature_tag ++ (", \"".data) ++ class_name ++ ("\")".data) ++ ['\n']
      (c.take pos) ++ logger_code ++ (c.drop pos)

/-- The feature-tag priority chain of `extract_class_info`, applied to the
lower-cased file path; first match wins, default APP. -/
def featureTagOf (path : Chars) : Chars :=
  let p := lowerStr path
  if inStr ("dashboard".data) p then ("LogConfig.FeatureTags.DASHBOARD".data)
  else if inStr ("message".data) p || inStr ("sms".data) p then ("LogConfig.FeatureTags.SMS".data)
  else if inStr ("transaction".data) p then ("LogConfig.FeatureTags.TRANSACTION".data)
  else if inStr ("categor".data) p then ("LogConfig.FeatureTags.CATEGORIES".data)
  else if inStr ("merchant".data) p then ("LogConfig.FeatureTags.MERCHANT".data)
  else if inStr ("insight".data) p then ("LogConfig.FeatureTags.INSIGHTS".data)
  else if inStr ("database".data) p || inStr ("dao".data) p || inStr ("repository".data) p then ("LogConfig.FeatureTags.DATABASE".data)
  else if inStr ("network".data) p || inStr ("api".data) p then ("LogConfig.FeatureTags.NETWORK".data)
  else if inStr ("migration".data) p then ("LogConfig.FeatureTags.MIGRATION".data)
  else ("LogConfig.FeatureTags.APP".data)

/-- `LogConverter.extract_class_info`: class name (or filename stem) and
feature tag. -/
def extract_class_info (path content : Chars) : Chars × Chars :=
  (match searchFirst classNameAt content with
   | some w => w
   | none => pyStem path,
   featureTagOf path)

/-- `LogConverter.convert`, exceptions apart: the eligibility checks
followed by the full transformation pipeline.  Returns the converted flag
and the final text. -/
def convert (path content : Chars) : Bool × Chars :=
  if inStr canonicalField content then (false, content)
  else if !(inStr ("Timber".data) content) && !(inStr ("Log.d".data) content)
      && !(inStr ("Log.e".data) content) then (false, content)
  else
    let ci := extract_class_info path content
    let t1 := process_content content
    let t2 := update_imports t1
    let t3 := add_logger_instance t2 ci.1 ci.2
    (true, t3)

/-- One file of the outer loop: its path, the result of reading it, and
whether writing it would succeed. -/
structure FileJob where
  path : Chars
  readRes : Except Chars Chars
  writeOk : Bool

/-- `LogConverter.convert` with its `try/except` boundary: any failure of
the read or of the write yields `false`; the second component is the
content handed to the write (`none` when no write is attempted). -/
def convertRun (j : FileJob) : Bool × Option Chars :=
  match j.readRes with
  | .error _ => (false, none)
  | .ok content =>
    let r := convert j.path content
    if r.1 then
      if j.writeOk then (true, some r.2) else (false, some r.2)
    else (false, none)

/-- Number of positions of `s` at which `p` occurs (occurrence count). -/
def countSub (p : Chars) : Chars → Nat
  | [] => if startsWith [] p then 1 else 0
  | s@(_ :: rest) => (if startsWith s p then 1 else 0) + countSub p rest

/-- The per-file loop of `main`: counts of (converted, skipped) files. -/
def processFiles : List FileJob → Nat × Nat
  | [] => (0, 0)
  | j :: rest =>
    let r := processFiles rest
    if (convertRun j).1 then (r.1 + 1, r.2) else (r.1, r.2 + 1)

/-! ### Helper lemmas -/

theorem startsWith_app (p r : Chars) : startsWith (p ++ r) p = true := by
  induction p with
  | nil => cases r <;> rfl
  | cons c p ih => simp [startsWith, ih]

theorem searchFirst_head {α : Type} (f : Chars → Option α) (s : Chars) (r : α)
    (h : f s = some r) : searchFirst f s = some r := by
  cases s <;> simp [searchFirst, h]

theorem searchFirst_timber_none (s : Chars) (h : inStr litTimberTag s = false) :
    searchFirst timberMatchAt s = none := by
  induction s with
  | nil => rfl
  | cons c rest ih =>
    simp only [inStr, Bool.or_eq_false_iff] at h
    have h1 : timberMatchAt (c :: rest) = none := by
      unfold timberMatchAt
      rw [h.1]
      rfl
    simp [searchFirst, h1, ih h.2]

theorem takeWhile_app_of (p : Char → Bool) (a : Chars) (c : Char) (b : Chars)
    (ha : ∀ x ∈ a, p x = true) (hc : p c = false) :
    List.takeWhile p (a ++ c :: b) = a := by
  induction a with
  | nil => simp [List.takeWhile_cons, hc]
  | cons x xs ih =>
    simp [List.takeWhile_cons, ha x (List.mem_cons_self x xs),
      ih (fun y hy => ha y (List.mem_cons_of_mem x hy))]

theorem dropWhile_len_le (p : Char → Bool) (l : Chars) :
    (List.dropWhile p l).length ≤ l.length := by
  induction l with
  | nil => simp
  | cons x xs ih =>
    rw [List.dropWhile_cons]
    by_cases h : p x = true
    · simp [h]; omega
    · simp [h]

theorem dropWhile_fix_app (p : Char → Bool) (a : Chars) (c : Char) (b : Chars)
    (ha : List.dropWhile p a = a) (hc : p c = false) :
    List.dropWhile p (a ++ c :: b) = a ++ c :: b := by
  cases a with
  | nil => simp [List.dropWhile_cons, hc]
  | cons x xs =>
    by_cases hx : p x = true
    · exfalso
      rw [List.dropWhile_cons, if_pos hx] at ha
      have h1 := congrArg List.length ha
      have h2 := dropWhile_len_le p xs
      simp at h1
      omega
    · have hx' : p x = false := by revert hx; cases p x <;> simp
      simp [List.dropWhile_cons, hx']

theorem lastIdxOf_not_mem (c : Char) (l : Chars) (h : c ∉ l) : lastIdxOf c l = none := by
  induction l with
  | nil => rfl
  | cons x xs ih =>
    have h1 : ¬ c = x ∧ c ∉ xs := by
      constructor
      · intro e; exact h (e ▸ List.mem_cons_self x xs)
      · intro m; exact h (List.mem_cons_of_mem x m)
    have h2 : (x == c) = false := by
      rw [beq_eq_false_iff_ne]
      exact fun e => h1.1 e.symm
    simp [lastIdxOf, ih h1.2, h2]

theorem lastIdxOf_app_self (c : Char) (xs : Chars) :
    lastIdxOf c (xs ++ [c]) = some xs.length := by
  induction xs with
  | nil => simp [lastIdxOf]
  | cons x l ih => simp [lastIdxOf, ih]

theorem lastIdxOf_app_cons (c : Char) (a b : Chars) (hb : c ∉ b) :
    lastIdxOf c (a ++ c :: b) = some a.length := by
  induction a with
  | nil => simp [lastIdxOf, lastIdxOf_not_mem c b hb]
  | cons x l ih => simp [lastIdxOf, ih]

theorem inStr_single_of_mem (c : Char) (s : Chars) (h : c ∈ s) : inStr [c] s = true := by
  induction s with
  | nil => cases h
  | cons x xs ih =>
    rcases List.mem_cons.1 h with h1 | h1
    · have : (x == c) = true := by rw [beq_iff_eq]; exact h1.symm
      simp [inStr, startsWith, this]
    · simp [inStr, ih h1]

theorem inStr_single_of_not_mem (c : Char) (s : Chars) (h : c ∉ s) :
    inStr [c] s = false := by
  induction s with
  | nil => rfl
  | cons x xs ih =>
    have h1 : (x == c) = false := by
      rw [beq_eq_false_iff_ne]
      exact fun e => h (e ▸ List.mem_cons_self x xs)
    have h2 : c ∉ xs := fun m => h (List.mem_cons_of_mem x m)
    simp [inStr, startsWith, h1, ih h2]

theorem one_le_countCh (c : Char) (a b : Chars) : 1 ≤ countCh c (a ++ c :: b) := by
  have hc : (c == c) = true := by simp
  simp [countCh, List.filter_append, List.filter_cons, hc]
  omega

theorem length_beq_zero_false (l : Chars) (h : l ≠ []) : (l.length == 0) = false := by
  cases l with
  | nil => exact absurd rfl h
  | cons x xs => rfl

theorem pySplitOnce_app (c : Char) (a b : Chars) (ha : c ∉ a) :
    pySplitOnce c (a ++ c :: b) = [a, b] := by
  unfold pySplitOnce
  have h1 : List.takeWhile (fun x => !(x == c)) (a ++ c :: b) = a := by
    apply takeWhile_app_of
    · intro x hx
      have : x ≠ c := fun e => ha (e ▸ hx)
      simp [this]
    · simp
  rw [h1]
  have h2 : (a.length == (a ++ c :: b).length) = false := by
    rw [beq_eq_false_iff_ne]
    simp [List.length_append]
  have h3 : (a ++ c :: b).drop (a.length + 1) = b := by
    have e1 : a ++ c :: b = (a ++ [c]) ++ b := by simp
    have e2 : a.length + 1 = (a ++ [c]).length := by simp
    rw [e1, e2, List.drop_left]
  simp [h2, h3]

theorem pyRSplitOnce_app (c : Char) (a b : Chars) (hb : c ∉ b) :
    pyRSplitOnce c (a ++ c :: b) = [a, b] := by
  unfold pyRSplitOnce
  rw [lastIdxOf_app_cons c a b hb]
  have h3 : (a ++ c :: b).drop (a.length + 1) = b := by
    have e1 : a ++ c :: b = (a ++ [c]) ++ b := by simp
    have e2 : a.length + 1 = (a ++ [c]).length := by simp
    rw [e1, e2, List.drop_left]
  simp [h3, List.take_left]

theorem timberMatchAt_eq (tag msg : Chars) (lv : Char)
    (htag : tag ≠ []) (htp : ')' ∉ tag) (hlv : levelChar lv = true) :
    timberMatchAt (litTimberTag ++ tag ++ ')' :: '.' :: lv :: '(' :: (msg ++ [')']))
      = some (lv, msg) := by
  have h1 : startsWith (litTimberTag ++ (tag ++ ')' :: '.' :: lv :: '(' :: (msg ++ [')'])))
      litTimberTag = true := startsWith_app _ _
  have h3 : List.takeWhile (fun c => !(c == ')'))
      (tag ++ ')' :: '.' :: lv :: '(' :: (msg ++ [')'])) = tag := by
    apply takeWhile_app_of
    · intro x hx
      have : x ≠ ')' := fun e => htp (e ▸ hx)
      simp [this]
    · simp
  have h4 : (tag.length == 0) = false := length_beq_zero_false tag htag
  have h6 : lastIdxOf ')' (msg ++ [')']) = some msg.length := lastIdxOf_app_self ')' msg
  simp [timberMatchAt, h1, List.drop_left, h3, h4, h6, hlv, List.take_left]

theorem logMatchAt_eq (t args : Chars) (lv : Char)
    (ht : t ≠ []) (htq : '"' ∉ t) (hlv : levelChar lv = true)
    (hws : List.dropWhile pyWs args = args) :
    logMatchAt ('L' :: 'o' :: 'g' :: '.' :: lv :: '(' :: '"' ::
        (t ++ '"' :: ',' :: ' ' :: (args ++ [')'])))
      = some (lv, t, args) := by
  have h3 : List.takeWhile (fun c => !(c == '"'))
      (t ++ '"' :: ',' :: ' ' :: (args ++ [')'])) = t := by
    apply takeWhile_app_of
    · intro x hx
      have : x ≠ '"' := fun e => htq (e ▸ hx)
      simp [this]
    · simp
  have h4 : (t.length == 0) = false := length_beq_zero_false t ht
  have h5 : List.dropWhile pyWs (args ++ [')']) = args ++ [')'] :=
    dropWhile_fix_app pyWs args ')' [] hws (by decide)
  have h6 : lastIdxOf ')' (args ++ [')']) = some args.length := lastIdxOf_app_self ')' args
  have h7 : pyWs ' ' = true := by decide
  simp [logMatchAt, hlv, h3, h4, List.drop_left, List.dropWhile_cons, h7, h5, h6,
    List.take_left]

/-! ### Claim theorems -/

/-- Claim C1: for error-level legacy calls both source orderings converge to
message-then-exception.  A Form A call `Timber.tag(TAG).e(A1,A2)` has its
argument list split on its first comma and the left part `A1` is emitted
last as the exception; a Form B call `Log.e("TAG", B1,B2)` has its remainder
split on its last comma and the right part `B2` is emitted last as the
exception; both produce `logger.error("<ctx>", <msg>, <exc>)` where `<ctx>`
is the resolved context label. -/
theorem error_call_ordering
    (content : Chars) (n : Nat) (tag a1 a2 t b1 b2 : Chars)
    (htag : tag ≠ []) (htp : ')' ∉ tag) (ha1 : ',' ∉ a1)
    (hnA : should_remove_log
      (litTimberTag ++ tag ++ ')' :: '.' :: 'e' :: '(' :: ((a1 ++ ',' :: a2) ++ [')'])) = false)
    (ht : t ≠ []) (htq : '"' ∉ t) (hb2 : ',' ∉ b2)
    (hws : List.dropWhile pyWs (b1 ++ ',' :: b2) = b1 ++ ',' :: b2)
    (hnT : inStr litTimberTag
      ('L' :: 'o' :: 'g' :: '.' :: 'e' :: '(' :: '"' ::
        (t ++ '"' :: ',' :: ' ' :: ((b1 ++ ',' :: b2) ++ [')']))) = false)
    (hnB : should_remove_log
      ('L' :: 'o' :: 'g' :: '.' :: 'e' :: '(' :: '"' ::
        (t ++ '"' :: ',' :: ' ' :: ((b1 ++ ',' :: b2) ++ [')']))) = false) :
    convert_log_call content n
        (litTimberTag ++ tag ++ ')' :: '.' :: 'e' :: '(' :: ((a1 ++ ',' :: a2) ++ [')']))
      = ("logger.error(\"".data) ++ extract_method_name content n ++ ("\", ".data)
          ++ pyStrip a2 ++ (", ".data) ++ pyStrip a1 ++ [')']
    ∧ convert_log_call content n
        ('L' :: 'o' :: 'g' :: '.' :: 'e' :: '(' :: '"' ::
          (t ++ '"' :: ',' :: ' ' :: ((b1 ++ ',' :: b2) ++ [')'])))
      = ("logger.error(\"".data) ++ extract_method_name content n ++ ("\", ".data)
          ++ pyStrip b1 ++ (", ".data) ++ pyStrip b2 ++ [')'] := by
  constructor
  · have hm : timberMatchAt
        (litTimberTag ++ tag ++ ')' :: '.' :: 'e' :: '(' :: ((a1 ++ ',' :: a2) ++ [')']))
        = some ('e', a1 ++ ',' :: a2) :=
      timberMatchAt_eq tag (a1 ++ ',' :: a2) 'e' htag htp (by decide)
    have hs := searchFirst_head timberMatchAt _ _ hm
    have hin : inStr (",".data) (a1 ++ ',' :: a2) = true := by
      have e : (",".data) = [','] := rfl
      rw [e]
      exact inStr_single_of_mem ',' _ (by simp)
    have hsp : pySplitOnce ',' (a1 ++ ',' :: a2) = [a1, a2] := pySplitOnce_app ',' a1 a2 ha1
    simp only [List.append_assoc, List.cons_append] at hnA hs
    simp [convert_log_call, hnA, hs, hin, hsp, levelMap]
  · have hm : logMatchAt
        ('L' :: 'o' :: 'g' :: '.' :: 'e' :: '(' :: '"' ::
          (t ++ '"' :: ',' :: ' ' :: ((b1 ++ ',' :: b2) ++ [')'])))
        = some ('e', t, b1 ++ ',' :: b2) :=
      logMatchAt_eq t (b1 ++ ',' :: b2) 'e' ht htq (by decide) hws
    have hsT := searchFirst_timber_none _ hnT
    have hsL := searchFirst_head logMatchAt _ _ hm
    have hc : 1 ≤ countCh ',' (b1 ++ ',' :: b2) := one_le_countCh ',' b1 b2
    have hrs : pyRSplitOnce ',' (b1 ++ ',' :: b2) = [b1, b2] := pyRSplitOnce_app ',' b1 b2 hb2
    simp only [List.append_assoc, List.cons_append] at hnB hsT hsL
    simp [convert_log_call, hnB, hsT, hsL, hc, hrs, levelMap]

/-- Claim C1 witness: the two examples of the spec, `Timber.tag(X).e(exc, "boom")`
and `Log.e("TAG", "boom", exc)`, both rewritten against an empty file (so
the resolved context label is the sentinel `unknown`). -/
theorem error_call_ordering_witness :
    convert_log_call [] 1 ("Timber.tag(X).e(exc, \"boom\")".data)
      = ("logger.error(\"unknown\", \"boom\", exc)".data)
    ∧ convert_log_call [] 1 ("Log.e(\"TAG\", \"boom\", exc)".data)
      = ("logger.error(\"unknown\", \"boom\", exc)".data) := by
  have h := error_call_ordering [] 1 ("X".data) ("exc".data) (" \"boom\"".data)
    ("TAG".data) ("\"boom\"".data) (" exc".data)
    (by decide) (by decide) (by decide) (by decide) (by decide) (by decide) (by decide)
    (by decide) (by decide) (by decide)
  exact ⟨h.1.trans (by decide), h.2.trans (by decide)⟩

/-- Claim C3 counterexample: the Form A error call `Timber.tag(X).e(exc)`
has no comma in its captured argument; the code emits the two-argument form
`logger.error("unknown", exc)`, not the claimed
`logger.error("unknown", "", exc)`. -/
theorem formA_no_comma_cex :
    convert_log_call [] 1 ("Timber.tag(X).e(exc)".data)
      = ("logger.error(\"unknown\", exc)".data)
    ∧ ("logger.error(\"unknown\", exc)".data)
      ≠ ("logger.error(\"unknown\", \"\", exc)".data) := by
  exact ⟨by decide, by decide⟩

/-- Claim C3 (amended): for a Form A error-level call whose captured
argument text contains no comma, the rewriter emits the two-argument form —
the whole captured argument becomes the message expression and no
empty-string literal or exception argument is produced. -/
theorem formA_no_comma_two_arg
    (content : Chars) (n : Nat) (tag msg : Chars)
    (htag : tag ≠ []) (htp : ')' ∉ tag) (hmsg : ',' ∉ msg)
    (hn : should_remove_log
      (litTimberTag ++ tag ++ ')' :: '.' :: 'e' :: '(' :: (msg ++ [')'])) = false) :
    convert_log_call content n
        (litTimberTag ++ tag ++ ')' :: '.' :: 'e' :: '(' :: (msg ++ [')']))
      = ("logger.error(\"".data) ++ extract_method_name content n ++ ("\", ".data)
          ++ msg ++ [')'] := by
  have hm : timberMatchAt
      (litTimberTag ++ tag ++ ')' :: '.' :: 'e' :: '(' :: (msg ++ [')']))
      = some ('e', msg) := timberMatchAt_eq tag msg 'e' htag htp (by decide)
  have hs := searchFirst_head timberMatchAt _ _ hm
  have hin : inStr (",".data) msg = false := by
    have e : (",".data) = [','] := rfl
    rw [e]
    exact inStr_single_of_not_mem ',' msg hmsg
  simp only [List.append_assoc, List.cons_append] at hn hs
  simp [convert_log_call, hn, hs, hin, levelMap]

/-- Claim C3 (amended) witness: `Timber.tag(X).e(exc)` against an empty
file. -/
theorem formA_no_comma_two_arg_witness :
    convert_log_call [] 1 ("Timber.tag(X).e(exc)".data)
      = ("logger.error(\"unknown\", exc)".data) := by
  have h := formA_no_comma_two_arg [] 1 ("X".data) ("exc".data)
    (by decide) (by decide) (by decide) (by decide)
  exact h.trans (by decide)

theorem mem_downFrom (k : Nat) : ∀ a i, k ≤ a → (i ∈ downFrom a k ↔ a - k < i ∧ i ≤ a) := by
  induction k with
  | zero =>
    intro a i _
    simp only [downFrom, List.not_mem_nil, false_iff]
    omega
  | succ k ih =>
    intro a i hk
    have h1 : k ≤ a - 1 := by omega
    simp [downFrom, ih (a - 1) i h1]
    omega

theorem firstFun_all_none (lines : List Chars) (k : Nat) :
    ∀ a, k ≤ a → (∀ i, a - k < i → i ≤ a → funSearch (lines.getD i []) = none) →
    firstFun lines (downFrom a k) = ("unknown".data) := by
  induction k with
  | zero => intro a _ _; rfl
  | succ k ih =>
    intro a hk h
    have ha : funSearch (lines.getD a []) = none := h a (by omega) (by omega)
    simp only [downFrom, firstFun, ha]
    exact ih (a - 1) (by omega) (fun i h1 h2 => h i (by omega) (by omega))

theorem firstFun_first (lines : List Chars) (k : Nat) :
    ∀ a i r, k ≤ a → a - k < i → i ≤ a → funSearch (lines.getD i []) = some r →
    (∀ j, i < j → j ≤ a → funSearch (lines.getD j []) = none) →
    firstFun lines (downFrom a k) = r := by
  induction k with
  | zero => intro a i r _ h1 h2 _ _; omega
  | succ k ih =>
    intro a i r hk h1 h2 hr hafter
    by_cases hia : i = a
    · subst hia
      simp only [downFrom, firstFun, hr]
    · have ha : funSearch (lines.getD a []) = none := hafter a (by omega) (by omega)
      simp only [downFrom, firstFun, ha]
      exact ih (a - 1) i r (by omega) (by omega) (by omega) hr
        (fun j hj1 hj2 => hafter j hj1 (by omega))

/-- Claim C4 (amended): for a call on 1-based line `n`, `extract_method_name`
scans 0-based line indices strictly between `max(0, n - 50)` (EXCLUSIVE) and
`n` — so the first line scanned is the call line itself (index `n - 1`) and
the line at index `max(0, n - 50)` is never examined; it returns the
identifier captured by the first scanned line matching the `fun`
declaration signature and the sentinel `unknown` when no scanned line
matches. -/
theorem method_window_spec (content : Chars) (n : Nat) :
    (∀ i, i ∈ winIdxs n ↔ n - 50 < i ∧ i < n)
    ∧ ((∀ i, n - 50 < i → i < n → funSearch (lineAt content i) = none) →
        extract_method_name content n = ("unknown".data))
    ∧ (∀ i r, n - 50 < i → i < n → funSearch (lineAt content i) = some r →
        (∀ j, i < j → j < n → funSearch (lineAt content j) = none) →
        extract_method_name content n = r) := by
  have hk : (n - 1) - (n - 50) ≤ n - 1 := Nat.sub_le _ _
  refine ⟨?_, ?_, ?_⟩
  · intro i
    rw [winIdxs, mem_downFrom _ _ _ hk]
    omega
  · intro h
    rw [extract_method_name, winIdxs]
    exact firstFun_all_none _ _ _ hk
      (fun i h1 h2 => h i (by omega) (by omega))
  · intro i r h1 h2 hr hafter
    rw [extract_method_name, winIdxs]
    exact firstFun_first _ _ _ i r hk (by omega) (by omega) hr
      (fun j hj1 hj2 => hafter j hj1 (by omega))

/-- Claim C4 (amended) witness: in the two-line file `x\ncall` with the call
on line 2, only index 1 is in the window and it holds no declaration, so
the sentinel is returned. -/
theorem method_window_spec_witness :
    extract_method_name ("x\ncall".data) 2 = ("unknown".data) := by
  apply (method_window_spec ("x\ncall".data) 2).2.1
  intro i h1 h2
  have e : i = 1 := by omega
  subst e
  decide

/-- Claim C4 counterexample: the file `fun foo(\ncall` with the call on
line 2.  The claimed window — down to line `max(0, 2 - 50) = 0` inclusive,
over the lines preceding the call — contains the declaration `fun foo(`
(index 0) and so would capture `foo`; the code scans only index 1 (the call
line itself) and returns the sentinel `unknown`. -/
theorem method_window_cex :
    extract_method_name ("fun foo(\ncall".data) 2 = ("unknown".data)
    ∧ funSearch (lineAt ("fun foo(\ncall".data) 0) = some ("foo".data)
    ∧ winIdxs 2 = [1] := by
  exact ⟨by decide, by decide, by decide⟩

theorem procLines_app (content : Chars) (ys : List Chars) :
    ∀ xs n, procLines content n (xs ++ ys)
      = procLines content n xs ++ procLines content (n + xs.length) ys := by
  intro xs
  induction xs with
  | nil => intro n; simp [procLines]
  | cons l xs ih =>
    intro n
    have e : n + 1 + xs.length = n + (xs.length + 1) := by omega
    cases h1 : lineHasMarker l with
    | false => simp [procLines, h1, ih (n + 1), e]
    | true =>
      cases h2 : ((pyStrip (processLine content n l)).length == 0) with
      | true => simp [procLines, h1, h2, ih (n + 1), e]
      | false => simp [procLines, h1, h2, ih (n + 1), e]

/-- Claim C5: a matched legacy call whose text matches a noise signature is
replaced by empty text, and when the substituted line is blank the physical
line is absent from the output: the processed content is exactly the
processing of the preceding lines directly followed by the processing of
the following lines, with nothing in between. -/
theorem noise_line_removed (content : Chars) (pre post : List Chars) (l : Chars) :
    (∀ m k, should_remove_log m = true → convert_log_call content k m = [])
    ∧ (pyLines content = pre ++ l :: post → lineHasMarker l = true →
        pyStrip (processLine content (pre.length + 1) l) = [] →
        process_content content
          = joinLines (procLines content 1 pre
              ++ procLines content (pre.length + 2) post)) := by
  constructor
  · intro m k h
    simp [convert_log_call, h]
  · intro hl hmark hblank
    rw [process_content, hl, procLines_app]
    have e1 : 1 + pre.length = pre.length + 1 := by omega
    rw [e1]
    have hb : ((pyStrip (processLine content (pre.length + 1) l)).length == 0) = true := by
      rw [hblank]
      rfl
    simp only [procLines, hmark, hb, if_true]

/-- Claim C5 witness: in `a\nLog.v("T", "x")\nb` the verbose call matches
the noise pattern `Log\.v\(`, the substituted middle line is blank, and the
output is exactly `a\nb` — no blank line remains. -/
theorem noise_line_removed_witness :
    process_content ("a\nLog.v(\"T\", \"x\")\nb".data) = ("a\nb".data) := by
  have h := (noise_line_removed ("a\nLog.v(\"T\", \"x\")\nb".data)
    [("a".data)] [("b".data)] ("Log.v(\"T\", \"x\")".data)).2
    (by decide) (by decide) (by decide)
  exact h.trans (by decide)

/-- Claim C6: a file whose text contains none of the legacy logging markers
(`Timber`, `Log.d`, `Log.e`) is skipped: `convert` returns false before any
write is attempted, so the file is byte-for-byte unchanged. -/
theorem untouched_file_skip (path content : Chars) (w : Bool)
    (ht : inStr ("Timber".data) content = false)
    (hd : inStr ("Log.d".data) content = false)
    (he : inStr ("Log.e".data) content = false) :
    convertRun ⟨path, .ok content, w⟩ = (false, none) := by
  by_cases hc : inStr canonicalField content = true
  · simp [convertRun, convert, hc]
  · have hc2 : inStr canonicalField content = false := by
      revert hc; cases inStr canonicalField content <;> simp
    simp [convertRun, convert, hc2, ht, hd, he]

/-- Claim C6 witness: a file with no logging at all is returned unchanged
with no write. -/
theorem untouched_file_skip_witness :
    convertRun ⟨("a.kt".data), .ok ("hello world".data), true⟩ = (false, none) :=
  untouched_file_skip ("a.kt".data) ("hello world".data) true
    (by decide) (by decide) (by decide)

/-- Claim C10: `convert` skips (returns false and leaves the text
unchanged) every file whose text contains none of the exact substrings
`Timber`, `Log.d`, `Log.e` — in particular files whose only legacy calls
are `Log.i`, `Log.w` or `Log.v`. -/
theorem marker_gate_skip (path content : Chars)
    (ht : inStr ("Timber".data) content = false)
    (hd : inStr ("Log.d".data) content = false)
    (he : inStr ("Log.e".data) content = false) :
    convert path content = (false, content) := by
  by_cases hc : inStr canonicalField content = true
  · simp [convert, hc]
  · have hc2 : inStr canonicalField content = false := by
      revert hc; cases inStr canonicalField content <;> simp
    simp [convert, hc2, ht, hd, he]

/-- Claim C10 witness: a file containing only `Log.i`, `Log.w` and `Log.v`
legacy calls carries none of the three markers and is left entirely
untouched. -/
theorem marker_gate_skip_witness :
    convert ("a.kt".data)
        ("Log.i(\"T\", \"m\")\nLog.w(\"T\", \"m\")\nLog.v(\"T\", \"m\")".data)
      = (false, ("Log.i(\"T\", \"m\")\nLog.w(\"T\", \"m\")\nLog.v(\"T\", \"m\")".data)) :=
  marker_gate_skip _ _ (by decide) (by decide) (by decide)

/-- Claim C2 counterexample: on the file `Log.d("T", "call
Timber.tag(a).d(b)")` (a legacy call whose string literal mentions a Timber
call) the first run converts and returns `True`, but the second run again
returns `True` — not `False` — and changes the text again: the transformer
is not idempotent. -/
theorem convert_not_idempotent_cex :
    (convert ("Foo.kt".data) ("Log.d(\"T\", \"call Timber.tag(a).d(b)\")".data)).1 = true
    ∧ (convert ("Foo.kt".data)
        (convert ("Foo.kt".data) ("Log.d(\"T\", \"call Timber.tag(a).d(b)\")".data)).2).1 = true
    ∧ (convert ("Foo.kt".data)
        (convert ("Foo.kt".data) ("Log.d(\"T\", \"call Timber.tag(a).d(b)\")".data)).2).2
      ≠ (convert ("Foo.kt".data) ("Log.d(\"T\", \"call Timber.tag(a).d(b)\")".data)).2 := by
  exact ⟨by decide, by decide, by decide⟩

/-- Claim C2 (amended): whenever the output of the first run contains the
canonical logger field declaration string — in particular whenever the
logger field was injected — the second run returns False (skip) and leaves
the text unchanged. -/
theorem second_run_skips_with_field (path t : Chars)
    (h : inStr canonicalField ((convert path t).2) = true) :
    convert path ((convert path t).2) = (false, (convert path t).2) := by
  generalize (convert path t).2 = u at h ⊢
  simp [convert, h]

/-- Claim C2 (amended) witness: a file with a class body gets the field
injected on the first run, and the second run is then a skip. -/
theorem second_run_skips_with_field_witness :
    convert ("A.kt".data)
        ((convert ("A.kt".data) ("import x.y\nclass A \x7b\nLog.d(\"T\", \"m\")\n\x7d".data)).2)
      = (false,
        (convert ("A.kt".data) ("import x.y\nclass A \x7b\nLog.d(\"T\", \"m\")\n\x7d".data)).2) :=
  second_run_skips_with_field ("A.kt".data)
    ("import x.y\nclass A \x7b\nLog.d(\"T\", \"m\")\n\x7d".data) (by decide)

set_option maxRecDepth 100000 in
/-- Claim C7 counterexample: an input that already holds two copies of the
canonical import line and one legacy call is converted (returns `True`),
and the output still holds two canonical import lines — the output is not
limited to at most one for every input. -/
theorem duplicate_import_cex :
    (convert ("A.kt".data)
      (("import com.expensemanager.app.utils.logging.StructuredLogger\nimport com.expensemanager.app.utils.logging.StructuredLogger\nclass A \x7b\nTimber.tag(T).d(x)\n\x7d").data)).1 = true
    ∧ countSub canonicalImport
      (convert ("A.kt".data)
        (("import com.expensemanager.app.utils.logging.StructuredLogger\nimport com.expensemanager.app.utils.logging.StructuredLogger\nclass A \x7b\nTimber.tag(T).d(x)\n\x7d").data)).2 = 2 := by
  exact ⟨by decide, by decide⟩

theorem startsWith_length_le (s p : Chars) (h : startsWith s p = true) :
    p.length ≤ s.length := by
  induction p generalizing s with
  | nil => simp
  | cons c p ih =>
    cases s with
    | nil => simp [startsWith] at h
    | cons a s2 =>
      simp only [startsWith, Bool.and_eq_true] at h
      have := ih s2 h.2
      simp only [List.length_cons]
      omega

theorem startsWith_take_eq (s p : Chars) (h : startsWith s p = true) :
    s.take p.length = p := by
  induction p generalizing s with
  | nil => simp
  | cons c p ih =>
    cases s with
    | nil => simp [startsWith] at h
    | cons a s2 =>
      simp only [startsWith, Bool.and_eq_true, beq_iff_eq] at h
      simp [List.take_succ_cons, h.1, ih s2 h.2]

theorem startsWith_nil_elim (p : Chars) (h : startsWith [] p = true) : p = [] := by
  cases p with
  | nil => rfl
  | cons c p2 => simp [startsWith] at h

theorem startsWith_app_mono (p : Chars) :
    ∀ s t, startsWith s p = true → startsWith (s ++ t) p = true := by
  induction p with
  | nil => intro s t _; cases s ++ t <;> rfl
  | cons c p ih =>
    intro s t h
    cases s with
    | nil => simp [startsWith] at h
    | cons a s2 =>
      simp only [startsWith, List.cons_append, Bool.and_eq_true] at h ⊢
      exact ⟨h.1, ih s2 t h.2⟩

theorem startsWith_app_left (p : Chars) :
    ∀ a b, startsWith (a ++ b) p = true → p.length ≤ a.length →
    startsWith a p = true := by
  induction p with
  | nil => intro a b _ _; cases a <;> rfl
  | cons c p ih =>
    intro a b h hlen
    cases a with
    | nil => simp at hlen
    | cons x a2 =>
      simp only [List.cons_append, startsWith, Bool.and_eq_true] at h ⊢
      refine ⟨h.1, ih a2 b h.2 ?_⟩
      simp only [List.length_cons] at hlen
      omega

theorem startsWith_app_split (p : Chars) :
    ∀ a b, startsWith (a ++ b) p = true → a.length < p.length →
    p.take a.length = a ∧ startsWith b (p.drop a.length) = true := by
  intro a
  induction a generalizing p with
  | nil => intro b h _; exact ⟨rfl, h⟩
  | cons x a2 ih =>
    intro b h hlen
    cases p with
    | nil => simp at hlen
    | cons c p2 =>
      simp only [List.cons_append, startsWith, Bool.and_eq_true, beq_iff_eq] at h
      have hl2 : a2.length < p2.length := by
        simp only [List.length_cons] at hlen
        omega
      have := ih p2 b h.2 hl2
      simp [List.take_succ_cons, List.drop_succ_cons, h.1, this.1, this.2]

theorem inStr_of_startsWith (p s : Chars) (h : startsWith s p = true) :
    inStr p s = true := by
  cases s <;> simp [inStr, h]

theorem inStr_app_right (p a b : Chars) (h : inStr p b = true) :
    inStr p (a ++ b) = true := by
  induction a with
  | nil => simpa
  | cons x a2 ih => simp [inStr, ih]

theorem inStr_app_left (p a b : Chars) (h : inStr p a = true) :
    inStr p (a ++ b) = true := by
  induction a with
  | nil =>
    have h2 : startsWith [] p = true := by simpa [inStr] using h
    have h3 := startsWith_nil_elim p h2
    subst h3
    cases b <;> simp [inStr, startsWith]
  | cons x a2 ih =>
    simp only [inStr, Bool.or_eq_true, List.cons_append] at h ⊢
    rcases h with h | h
    · exact Or.inl (startsWith_app_mono p (x :: a2) b h)
    · exact Or.inr (ih h)

theorem countSub_zero (p s : Chars) (h : inStr p s = false) : countSub p s = 0 := by
  induction s with
  | nil =>
    have h2 : startsWith [] p = false := by simpa [inStr] using h
    simp [countSub, h2]
  | cons c s2 ih =>
    simp only [inStr, Bool.or_eq_false_iff] at h
    simp [countSub, h.1, ih h.2]

theorem startsWith_sep_app (d : Char) (p : Chars) (hd : d ∉ p) :
    ∀ x y, startsWith (x ++ d :: y) p = startsWith x p := by
  induction p with
  | nil => intro x y; cases x <;> rfl
  | cons c p2 ih =>
    intro x y
    have hd2 : d ∉ p2 := fun m => hd (List.mem_cons_of_mem c m)
    cases x with
    | nil =>
      have hne : (d == c) = false := by
        rw [beq_eq_false_iff_ne]
        intro e
        exact hd (e ▸ List.mem_cons_self c p2)
      simp [startsWith, hne]
    | cons a x2 =>
      simp [startsWith, ih hd2 x2 y]

theorem countSub_sep (p : Chars) (d : Char) (hp : p ≠ []) (hd : d ∉ p) :
    ∀ x y, countSub p (x ++ d :: y) = countSub p x + countSub p y := by
  have h0 : countSub p [] = 0 := by
    cases p with
    | nil => exact absurd rfl hp
    | cons c p2 => rfl
  intro x
  induction x with
  | nil =>
    intro y
    have hsw0 : startsWith [] p = false := by
      cases p with
      | nil => exact absurd rfl hp
      | cons c p2 => rfl
    have h1 : startsWith (d :: y) p = false := by
      have := startsWith_sep_app d p hd [] y
      simp only [List.nil_append] at this
      rw [this, hsw0]
    simp [countSub, h1, h0, hsw0]
  | cons a x2 ih =>
    intro y
    have h1 := startsWith_sep_app d p hd (a :: x2) y
    simp only [List.cons_append] at h1 ⊢
    simp only [countSub, h1, ih y]
    omega

theorem countSub_peel (p b : Chars) :
    ∀ a, (∀ t, (∃ s, a = s ++ t) → t ≠ [] → startsWith (t ++ b) p = false) →
    countSub p (a ++ b) = countSub p b := by
  intro a
  induction a with
  | nil => intro _; simp
  | cons c a2 ih =>
    intro h
    have h1 : startsWith ((c :: a2) ++ b) p = false := h (c :: a2) ⟨[], rfl⟩ (by simp)
    simp only [List.cons_append] at h1 ⊢
    have h2 := ih (fun t ht htne => by
      obtain ⟨s, hs⟩ := ht
      exact h t ⟨c :: s, by simp [hs]⟩ htne)
    simp [countSub, h1, h2]

theorem countSub_self_app (p b : Chars) (hp : p ≠ [])
    (hso : ∀ k, k < p.length → 1 ≤ k → p.take (p.length - k) ≠ p.drop k) :
    countSub p (p ++ b) = 1 + countSub p b := by
  cases p with
  | nil => exact absurd rfl hp
  | cons c p2 =>
    have h0 : startsWith ((c :: p2) ++ b) (c :: p2) = true := startsWith_app _ _
    have hpeel : countSub (c :: p2) (p2 ++ b) = countSub (c :: p2) b := by
      apply countSub_peel
      intro t ht htne
      obtain ⟨s, hs⟩ := ht
      cases hsw : startsWith (t ++ b) (c :: p2) with
      | false => rfl
      | true =>
        exfalso
        have hlt : t.length < (c :: p2).length := by
          have := congrArg List.length hs
          simp only [List.length_append, List.length_cons] at this ⊢
          omega
        have hsplit := startsWith_app_split (c :: p2) t b hsw hlt
        have hdrop : (c :: p2).drop (s.length + 1) = t := by
          have : (c :: p2).drop (s.length + 1) = p2.drop s.length := by
            simp [List.drop_succ_cons]
          rw [this, hs, List.drop_left]
        have htl : t ≠ [] := htne
        have hk1 : s.length + 1 < (c :: p2).length := by
          have := congrArg List.length hs
          simp only [List.length_cons, List.length_append] at this ⊢
          cases t with
          | nil => exact absurd rfl htl
          | cons u t2 =>
            simp only [List.length_cons] at this
            omega
        have hk2 : (c :: p2).length - (s.length + 1) = t.length := by
          have := congrArg List.length hs
          simp only [List.length_cons, List.length_append] at this ⊢
          omega
        apply hso (s.length + 1) hk1 (by omega)
        rw [hk2, hsplit.1, hdrop]
    simp only [List.cons_append] at h0 ⊢
    simp [countSub, h0, hpeel]

theorem countCh_le_of_startsWith (ch : Char) (s p : Chars) (h : startsWith s p = true) :
    countCh ch p ≤ countCh ch s := by
  have ht := startsWith_take_eq s p h
  calc countCh ch p = countCh ch (s.take p.length) := by rw [ht]
    _ ≤ countCh ch (s.take p.length) + countCh ch (s.drop p.length) := Nat.le_add_right _ _
    _ = countCh ch s := by
        simp only [countCh, ← List.length_append, ← List.filter_append,
          List.take_append_drop]

theorem countCh_cons_le (ch c : Char) (s : Chars) :
    countCh ch s ≤ countCh ch (c :: s) := by
  cases hc : (c == ch) <;> simp [countCh, List.filter_cons, hc]

theorem inStr_false_of_countCh (ch : Char) (p s : Chars)
    (h : countCh ch s < countCh ch p) : inStr p s = false := by
  induction s with
  | nil =>
    cases hsw : startsWith [] p with
    | false => simp [inStr, hsw]
    | true =>
      have he := startsWith_nil_elim p hsw
      subst he
      exact absurd h (lt_irrefl _)
  | cons c s2 ih =>
    have h2 := countCh_cons_le ch c s2
    cases hsw : startsWith (c :: s2) p with
    | false => simp [inStr, hsw, ih (by omega)]
    | true =>
      have := countCh_le_of_startsWith ch (c :: s2) p hsw
      omega

theorem countCh_zero_of_not_mem (ch : Char) (s : Chars) (h : ch ∉ s) :
    countCh ch s = 0 := by
  induction s with
  | nil => rfl
  | cons c s2 ih =>
    have h1 : (c == ch) = false := by
      rw [beq_eq_false_iff_ne]
      intro e
      exact h (e ▸ List.mem_cons_self c s2)
    have h2 : ch ∉ s2 := fun m => h (List.mem_cons_of_mem c m)
    simp only [countCh, List.filter_cons, h1, Bool.false_eq_true, if_false]
    exact ih h2

/-- The canonical import string added by `update_imports`, inserted into a
text that does not contain it, occurs exactly once in the result: no other
occurrence can span the insertion (it has no newline, no self-overlap, and
the surrounding text lacks it). -/
theorem countSub_import_insert (t1 t2 : Chars)
    (habs : inStr canonicalImport (t1 ++ t2) = false) :
    countSub canonicalImport (t1 ++ canonicalImport ++ '\n' :: t2) = 1 := by
  have hp : canonicalImport ≠ [] := by decide
  have hnl : '\n' ∉ canonicalImport := by decide
  have hso : ∀ k, k < canonicalImport.length → 1 ≤ k →
      canonicalImport.take (canonicalImport.length - k) ≠ canonicalImport.drop k := by
    decide
  have h1 : inStr canonicalImport t1 = false := by
    cases hc : inStr canonicalImport t1 with
    | false => rfl
    | true => exact absurd (inStr_app_left _ t1 t2 hc) (by simp [habs])
  have h2 : inStr canonicalImport t2 = false := by
    cases hc : inStr canonicalImport t2 with
    | false => rfl
    | true => exact absurd (inStr_app_right _ t1 t2 hc) (by simp [habs])
  have e1 : t1 ++ canonicalImport ++ '\n' :: t2
      = (t1 ++ canonicalImport) ++ '\n' :: t2 := by simp
  rw [e1, countSub_sep canonicalImport '\n' hp hnl, countSub_zero _ _ h2]
  have e2 : t1 ++ canonicalImport = t1 ++ (canonicalImport ++ []) := by simp
  rw [e2]
  have hkill : ∀ t, (∃ s, t1 = s ++ t) → t ≠ [] →
      startsWith (t ++ (canonicalImport ++ [])) canonicalImport = false := by
    intro t ht htne
    obtain ⟨s, hs⟩ := ht
    cases hsw : startsWith (t ++ (canonicalImport ++ [])) canonicalImport with
    | false => rfl
    | true =>
      exfalso
      by_cases hlen : canonicalImport.length ≤ t.length
      · have ha := startsWith_app_left canonicalImport t _ hsw hlen
        have hb := inStr_of_startsWith canonicalImport t ha
        have hcc : inStr canonicalImport t1 = true := by
          rw [hs]
          exact inStr_app_right _ s t hb
        simp [h1] at hcc
      · have hlt : t.length < canonicalImport.length := by omega
        have hsplit := startsWith_app_split canonicalImport t _ hsw hlt
        have hsw2 : startsWith canonicalImport
            (canonicalImport.drop t.length) = true :=
          startsWith_app_left _ canonicalImport [] hsplit.2
            (by simp [List.length_drop])
        have ht0 : 1 ≤ t.length := by
          cases t with
          | nil => exact absurd rfl htne
          | cons u t2 => simp
        apply hso t.length hlt ht0
        rw [← startsWith_take_eq canonicalImport (canonicalImport.drop t.length) hsw2,
          List.length_drop]
  rw [countSub_peel _ _ t1 hkill, countSub_self_app _ _ hp hso]
  have h3 : countSub canonicalImport [] = 0 := by decide
  rw [h3]

/-- The logger field code inserted by `add_logger_instance` contributes
exactly one occurrence of the canonical field declaration, provided the
class name and feature tag contain no space (the field string needs four
spaces, the inserted tail offers at most one) and the surrounding text
lacks the declaration. -/
theorem countSub_field_insert (t1 t2 cn ft : Chars)
    (habs : inStr canonicalField (t1 ++ t2) = false)
    (hcn : ' ' ∉ cn) (hft : ' ' ∉ ft) :
    countSub canonicalField
      (t1 ++ ((('\n' :: "    private val logger = StructuredLogger(".data)
          ++ ft ++ (", \"".data) ++ cn ++ ("\")".data) ++ ['\n'])
        ++ t2)) = 1 := by
  have hp : canonicalField ≠ [] := by decide
  have hnl : '\n' ∉ canonicalField := by decide
  have hso : ∀ k, k < canonicalField.length → 1 ≤ k →
      canonicalField.take (canonicalField.length - k) ≠ canonicalField.drop k := by
    decide
  have h1 : inStr canonicalField t1 = false := by
    cases hc : inStr canonicalField t1 with
    | false => rfl
    | true => exact absurd (inStr_app_left _ t1 t2 hc) (by simp [habs])
  have h2 : inStr canonicalField t2 = false := by
    cases hc : inStr canonicalField t2 with
    | false => rfl
    | true => exact absurd (inStr_app_right _ t1 t2 hc) (by simp [habs])
  have eM : t1 ++ ((('\n' :: "    private val logger = StructuredLogger(".data)
          ++ ft ++ (", \"".data) ++ cn ++ ("\")".data) ++ ['\n'])
        ++ t2)
      = t1 ++ '\n' :: ((("    ".data) ++ (canonicalField ++ (("(".data)
          ++ ft ++ (", \"".data) ++ cn ++ ("\")".data)))) ++ '\n' :: t2) := by
    simp [canonicalField]
  rw [eM, countSub_sep canonicalField '\n' hp hnl, countSub_zero _ _ h1,
    countSub_sep canonicalField '\n' hp hnl, countSub_zero _ _ h2]
  have hkillsp : ∀ t, (∃ s, ("    ".data) = s ++ t) → t ≠ [] →
      startsWith (t ++ (canonicalField ++ (("(".data)
        ++ ft ++ (", \"".data) ++ cn ++ ("\")".data)))) canonicalField = false := by
    intro t ht htne
    obtain ⟨s, hs⟩ := ht
    cases t with
    | nil => exact absurd rfl htne
    | cons u tt =>
      have hu : u ∈ ("    ".data) := by
        rw [hs]
        exact List.mem_append_right s (List.mem_cons_self u tt)
      have hu2 : u = ' ' := by
        have hall : ∀ x ∈ ("    ".data), x = ' ' := by decide
        exact hall u hu
      subst hu2
      have hcf : canonicalField = 'p' :: ("rivate val logger = StructuredLogger".data) := by
        decide
      rw [hcf]
      simp [startsWith]
  have hR : countSub canonicalField (("(".data)
      ++ ft ++ (", \"".data) ++ cn ++ ("\")".data)) = 0 := by
    apply countSub_zero
    apply inStr_false_of_countCh ' '
    have hftz : countCh ' ' ft = 0 := countCh_zero_of_not_mem _ _ hft
    have hcnz : countCh ' ' cn = 0 := countCh_zero_of_not_mem _ _ hcn
    have e1 : countCh ' ' (("(".data)
        ++ ft ++ (", \"".data) ++ cn ++ ("\")".data)) = 1 := by
      have p1 : (List.filter (fun x => x == ' ') ['(']).length = 0 := by decide
      have p2 : (List.filter (fun x => x == ' ') [',', ' ', '\"']).length = 1 := by decide
      have p3 : (List.filter (fun x => x == ' ') ['\"', ')']).length = 0 := by decide
      simp only [countCh] at hftz hcnz ⊢
      simp only [List.filter_append, List.length_append]
      omega
    rw [e1]
    decide
  rw [countSub_peel _ _ ("    ".data) hkillsp, countSub_self_app _ _ hp hso, hR]

/-- Claim C7 (amended): a single run performs each injection at most once.
`update_imports` leaves the post-removal text unchanged when the canonical
StructuredLogger import line is already present in it, and when it is
absent the updated text contains at most one occurrence of that line;
`add_logger_instance` leaves the text unchanged when either recognized
field spelling is present, and when the canonical field declaration is
absent its output contains at most one occurrence of it (for class names
and feature tags without spaces, as produced by the class regex and the
fixed tag table).  Preexisting duplicates are preserved, not deduplicated. -/
theorem injection_guards (c cn ft : Chars) :
    (inStr canonicalImport (removeLegacyImports c) = true →
      update_imports c = removeLegacyImports c)
    ∧ (inStr canonicalImport (removeLegacyImports c) = false →
      countSub canonicalImport (update_imports c) ≤ 1)
    ∧ (inStr canonicalField c = true ∨ inStr ("private val logger:".data) c = true →
      add_logger_instance c cn ft = c)
    ∧ (inStr canonicalField c = false → ' ' ∉ cn → ' ' ∉ ft →
      countSub canonicalField (add_logger_instance c cn ft) ≤ 1) := by
  refine ⟨?_, ?_, ?_, ?_⟩
  · intro h
    simp [update_imports, h]
  · intro h
    cases hip : importLinePos (removeLegacyImports c) with
    | none =>
      have e0 : update_imports c = removeLegacyImports c := by
        simp [update_imports, h, hip]
      rw [e0, countSub_zero _ _ h]
      exact Nat.zero_le 1
    | some i =>
      have e0 : update_imports c
          = (removeLegacyImports c).take i ++ canonicalImport
            ++ '\n' :: (removeLegacyImports c).drop i := by
        simp [update_imports, h, hip]
      rw [e0]
      refine le_of_eq (countSub_import_insert _ _ ?_)
      rw [List.take_append_drop]
      exact h
  · intro h
    rcases h with h | h <;> simp [add_logger_instance, h]
  · intro h hcn hft
    cases hcolon : inStr ("private val logger:".data) c with
    | true =>
      have e0 : add_logger_instance c cn ft = c := by
        simp [add_logger_instance, h, hcolon]
      rw [e0, countSub_zero _ _ h]
      exact Nat.zero_le 1
    | false =>
      cases hpos : classBodyPos c with
      | none =>
        have e0 : add_logger_instance c cn ft = c := by
          simp [add_logger_instance, h, hcolon, hpos]
        rw [e0, countSub_zero _ _ h]
        exact Nat.zero_le 1
      | some pos =>
        have e0 : add_logger_instance c cn ft
            = c.take pos ++ ((('\n' :: "    private val logger = StructuredLogger(".data)
                ++ ft ++ (", \"".data) ++ cn ++ ("\")".data) ++ ['\n'])
              ++ c.drop pos) := by
          simp [add_logger_instance, h, hcolon, hpos]
        rw [e0]
        refine le_of_eq (countSub_field_insert (c.take pos) (c.drop pos) cn ft ?_ hcn hft)
        rw [List.take_append_drop]
        exact h

/-- Claim C7 (amended) witness: a text already holding the canonical import
and a typed logger field receives neither injection, and on texts lacking
them each injection produces at most one copy. -/
theorem injection_guards_witness :
    update_imports
        (("import com.expensemanager.app.utils.logging.StructuredLogger\nprivate val logger: X\n").data)
      = removeLegacyImports
        (("import com.expensemanager.app.utils.logging.StructuredLogger\nprivate val logger: X\n").data)
    ∧ countSub canonicalImport (update_imports ("import a.b\nclass X".data)) ≤ 1
    ∧ add_logger_instance
        (("import com.expensemanager.app.utils.logging.StructuredLogger\nprivate val logger: X\n").data)
        [] [] =
      (("import com.expensemanager.app.utils.logging.StructuredLogger\nprivate val logger: X\n").data)
    ∧ countSub canonicalField
        (add_logger_instance ("class A \x7b\x7d".data) ("A".data)
          ("LogConfig.FeatureTags.APP".data)) ≤ 1 :=
  ⟨(injection_guards _ [] []).1 (by decide),
   (injection_guards ("import a.b\nclass X".data) [] []).2.1 (by decide),
   (injection_guards _ [] []).2.2.1 (Or.inr (by decide)),
   (injection_guards ("class A \x7b\x7d".data) ("A".data)
     ("LogConfig.FeatureTags.APP".data)).2.2.2 (by decide) (by decide) (by decide)⟩

theorem iteMemL {α : Type} (c : Prop) [Decidable c] (x y : α) (L : List α)
    (hx : x ∈ L) (hy : y ∈ L) : (if c then x else y) ∈ L := by
  by_cases h : c <;> simp [h, hx, hy]

/-- Claim C8: every file path is assigned exactly one classification label
from the fixed set, by case-insensitive substring tests in fixed priority
order with first match winning and default APP; a path containing both
`database` and `network` (and none of the higher-priority keywords)
resolves to DATABASE, which precedes NETWORK in the order. -/
theorem classification_priority (path : Chars) :
    featureTagOf path ∈
      [("LogConfig.FeatureTags.DASHBOARD".data), ("LogConfig.FeatureTags.SMS".data),
       ("LogConfig.FeatureTags.TRANSACTION".data), ("LogConfig.FeatureTags.CATEGORIES".data),
       ("LogConfig.FeatureTags.MERCHANT".data), ("LogConfig.FeatureTags.INSIGHTS".data),
       ("LogConfig.FeatureTags.DATABASE".data), ("LogConfig.FeatureTags.NETWORK".data),
       ("LogConfig.FeatureTags.MIGRATION".data), ("LogConfig.FeatureTags.APP".data)]
    ∧ (inStr ("database".data) (lowerStr path) = true →
       inStr ("network".data) (lowerStr path) = true →
       inStr ("dashboard".data) (lowerStr path) = false →
       inStr ("message".data) (lowerStr path) = false →
       inStr ("sms".data) (lowerStr path) = false →
       inStr ("transaction".data) (lowerStr path) = false →
       inStr ("categor".data) (lowerStr path) = false →
       inStr ("merchant".data) (lowerStr path) = false →
       inStr ("insight".data) (lowerStr path) = false →
       featureTagOf path = ("LogConfig.FeatureTags.DATABASE".data)) := by
  constructor
  · simp only [featureTagOf]
    refine iteMemL _ _ _ _ (by decide) ?_
    refine iteMemL _ _ _ _ (by decide) ?_
    refine iteMemL _ _ _ _ (by decide) ?_
    refine iteMemL _ _ _ _ (by decide) ?_
    refine iteMemL _ _ _ _ (by decide) ?_
    refine iteMemL _ _ _ _ (by decide) ?_
    refine iteMemL _ _ _ _ (by decide) ?_
    refine iteMemL _ _ _ _ (by decide) ?_
    refine iteMemL _ _ _ _ (by decide) (by decide)
  · intro h1 h2 h3 h4 h5 h6 h7 h8 h9
    simp [featureTagOf, h1, h3, h4, h5, h6, h7, h8, h9]

/-- Claim C8 witness: the path `app/database/network/Foo.kt` contains both
`database` and `network` and resolves to DATABASE. -/
theorem classification_priority_witness :
    featureTagOf ("app/database/network/Foo.kt".data)
      = ("LogConfig.FeatureTags.DATABASE".data) :=
  (classification_priority _).2 (by decide) (by decide) (by decide) (by decide)
    (by decide) (by decide) (by decide) (by decide) (by decide)

theorem processFiles_app (xs ys : List FileJob) :
    processFiles (xs ++ ys)
      = ((processFiles xs).1 + (processFiles ys).1,
         (processFiles xs).2 + (processFiles ys).2) := by
  induction xs with
  | nil => simp [processFiles]
  | cons j xs ih =>
    cases h : (convertRun j).1 <;> simp [processFiles, h, ih, Prod.ext_iff] <;> omega

/-- Claim C9: a per-file failure while reading or writing is caught at the
file boundary: `convert` returns false for that file, it is counted as
skipped, and the remaining files are processed exactly as they would have
been — one failing file never terminates the run. -/
theorem per_file_error_isolation (pre post : List FileJob) (j : FileJob)
    (h : (∃ e, j.readRes = .error e) ∨ j.writeOk = false) :
    (convertRun j).1 = false
    ∧ processFiles (pre ++ j :: post)
      = ((processFiles pre).1 + (processFiles post).1,
         (processFiles pre).2 + ((processFiles post).2 + 1)) := by
  have h1 : (convertRun j).1 = false := by
    rcases h with ⟨e, he⟩ | hw
    · simp [convertRun, he]
    · rcases j with ⟨p, rr, w⟩
      have hw2 : w = false := hw
      cases rr with
      | error e => simp [convertRun]
      | ok content =>
        cases hr : (convert p content).1 <;> simp [convertRun, hr, hw2]
  refine ⟨h1, ?_⟩
  rw [processFiles_app]
  simp [processFiles, h1]

/-- Claim C9 witness: a read failure in the middle of three files yields
one converted and two skipped; the failing file does not stop the others. -/
theorem per_file_error_isolation_witness :
    processFiles
        [⟨("g.kt".data), .ok ("class A \x7b\nLog.d(\"T\", \"m\")\n\x7d".data), true⟩,
         ⟨("x.kt".data), .error ("io".data), true⟩,
         ⟨("s.kt".data), .ok ("hello".data), true⟩]
      = (1, 2) := by
  have h := per_file_error_isolation
    [⟨("g.kt".data), .ok ("class A \x7b\nLog.d(\"T\", \"m\")\n\x7d".data), true⟩]
    [⟨("s.kt".data), .ok ("hello".data), true⟩]
    ⟨("x.kt".data), .error ("io".data), true⟩
    (Or.inl ⟨("io".data), rfl⟩)
  exact h.2.trans (by decide)

end LogConv
